import Mathlib

/-!
Verification of the Bresenham line rasterizer in src/bresenham.rs.

The Rust code is generic over a numeric capability trait LineRSInt
(constants zero/one/two plus native comparison and arithmetic).  We embed
the two instantiation families used by the claims:

* the signed instantiation (i8/i16/i32/isize) is modelled over `Int`, the
  ideal no-overflow semantics assumed by the spec's precondition that
  `2 * max (abs dx) (abs dy)` is representable;
* the unsigned instantiation (u8/u16/u32/usize) is modelled over `Nat`
  (namespace `Unsigned`), whose subtraction is truncated, matching the
  fact that a Rust unsigned subtraction is only well defined when the
  minuend is at least the subtrahend.
-/

namespace LineRS

/-- Sign tag of a signed-magnitude value (enum Sign, lines 44-48). -/
inductive Sign where
  | Pos
  | Neg
deriving DecidableEq

/-- A pair of coordinates (struct Point, lines 1-5), signed instantiation. -/
structure Point where
  x : Int
  y : Int
deriving DecidableEq

/-- Signed-magnitude value (struct SignedInt, lines 50-60), signed
instantiation: magnitude of type `Int` together with a sign tag. -/
structure SignedInt where
  magnitude : Int
  sign : Sign
deriving DecidableEq

/-- SignedInt::diff_of (lines 69-81): ordered difference of two values. -/
def SignedInt.diff_of (a b : Int) : SignedInt :=
  if a ≥ b then
    ⟨a - b, Sign.Pos⟩
  else
    ⟨b - a, Sign.Neg⟩

/-- SignedInt::from (lines 83-85): classify a plain value as a signed value. -/
def SignedInt.«from» (v : Int) : SignedInt :=
  SignedInt.diff_of v (0 : Int)

theorem from_sign_neg {r : Int} :
    (SignedInt.«from» r).sign = Sign.Neg ↔ r < 0 := by
  unfold SignedInt.«from» SignedInt.diff_of
  split <;> simp <;> omega

theorem from_magnitude_nonneg (r : Int) : 0 ≤ (SignedInt.«from» r).magnitude := by
  unfold SignedInt.«from» SignedInt.diff_of
  split <;> simp <;> omega

theorem from_magnitude_eq_neg {r : Int} (h : r < 0) :
    (SignedInt.«from» r).magnitude = 0 - r := by
  unfold SignedInt.«from» SignedInt.diff_of
  split <;> simp <;> omega

theorem from_magnitude_eq_nonneg {r : Int} (h : 0 ≤ r) :
    (SignedInt.«from» r).magnitude = r := by
  unfold SignedInt.«from» SignedInt.diff_of
  split <;> simp <;> omega

mutual

/-- SignedInt::sub (lines 87-103): subtract a plain value from a
signed-magnitude value.  The `if let Sign::Neg` tests of the source are
rendered as dependent ifs on sign equality. -/
def SignedInt.sub (s : SignedInt) (rhs : Int) : SignedInt :=
  if h : (SignedInt.«from» rhs).sign = Sign.Neg then
    s.add (SignedInt.«from» rhs).magnitude
  else if s.sign = Sign.Neg then
    ⟨s.magnitude + rhs, Sign.Neg⟩
  else
    SignedInt.diff_of s.magnitude rhs
termination_by (if rhs < 0 then (if s.sign = Sign.Neg then 3 else 1) else 0 : Nat)
decreasing_by
  have hr : rhs < 0 := from_sign_neg.mp h
  have hm : ¬ (SignedInt.«from» rhs).magnitude < 0 :=
    not_lt.mpr (from_magnitude_nonneg rhs)
  simp only [if_neg hm, if_pos hr]
  rcases hs : s.sign <;> simp [hs]

/-- SignedInt::add (lines 105-121): add a plain value to a
signed-magnitude value. -/
def SignedInt.add (s : SignedInt) (rhs : Int) : SignedInt :=
  if h : (SignedInt.«from» rhs).sign = Sign.Neg then
    s.sub (SignedInt.«from» rhs).magnitude
  else if hs : s.sign = Sign.Neg then
    (SignedInt.«from» rhs).sub s.magnitude
  else
    ⟨s.magnitude + rhs, Sign.Pos⟩
termination_by (if rhs < 0 then 4 else if s.sign = Sign.Neg then 2 else 0 : Nat)
decreasing_by
  · have hr : rhs < 0 := from_sign_neg.mp h
    have hm : ¬ (SignedInt.«from» rhs).magnitude < 0 :=
      not_lt.mpr (from_magnitude_nonneg rhs)
    simp only [if_neg hm, if_pos hr]
    rcases hs : s.sign <;> simp [hs]
  · have hr : ¬ rhs < 0 := fun hneg => h (from_sign_neg.mpr hneg)
    simp only [if_neg hr, if_pos hs]
    rcases lt_or_ge s.magnitude 0 with hm | hm
    · simp only [if_pos hm, if_neg h]
      omega
    · simp only [if_neg (not_lt.mpr hm)]
      omega

end

/-- The integer represented by a signed-magnitude value: the magnitude
when the sign is Pos, its negation when the sign is Neg. -/
def SignedInt.val (s : SignedInt) : Int :=
  match s.sign with
  | Sign.Pos => s.magnitude
  | Sign.Neg => -s.magnitude

/-- Class invariant of SignedInt: the magnitude is non-negative (it is a
representable value of the unsigned-capable type) and a Neg sign implies a
strictly positive magnitude (no negative zero). -/
def SignedInt.WF (s : SignedInt) : Prop :=
  0 ≤ s.magnitude ∧ (s.sign = Sign.Neg → 0 < s.magnitude)

instance (s : SignedInt) : Decidable s.WF :=
  inferInstanceAs (Decidable (0 ≤ s.magnitude ∧ (s.sign = Sign.Neg → 0 < s.magnitude)))

theorem diff_of_val (a b : Int) : (SignedInt.diff_of a b).val = a - b := by
  unfold SignedInt.diff_of
  split
  · rfl
  · show -(b - a) = a - b
    omega

theorem diff_of_WF (a b : Int) : (SignedInt.diff_of a b).WF := by
  unfold SignedInt.diff_of SignedInt.WF
  split <;> simp <;> omega

theorem diff_of_sign_pos {a b : Int} :
    (SignedInt.diff_of a b).sign = Sign.Pos ↔ b ≤ a := by
  unfold SignedInt.diff_of
  split <;> simp <;> omega

theorem diff_of_sign_neg {a b : Int} :
    (SignedInt.diff_of a b).sign = Sign.Neg ↔ a < b := by
  unfold SignedInt.diff_of
  split <;> simp <;> omega

theorem diff_of_magnitude (a b : Int) :
    (SignedInt.diff_of a b).magnitude = ((a - b).natAbs : Int) := by
  unfold SignedInt.diff_of
  split
  · show a - b = ((a - b).natAbs : Int)
    omega
  · show b - a = ((a - b).natAbs : Int)
    omega

theorem WF_sign_neg_iff {s : SignedInt} (h : s.WF) :
    s.sign = Sign.Neg ↔ s.val < 0 := by
  obtain ⟨h0, hneg⟩ := h
  unfold SignedInt.val
  rcases hs : s.sign <;> simp [hs]
  · omega
  · exact hneg hs

theorem WF_magnitude_eq_abs {s : SignedInt} (h : s.WF) :
    s.magnitude = (s.val.natAbs : Int) := by
  obtain ⟨h0, hneg⟩ := h
  rcases hs : s.sign <;> simp only [SignedInt.val, hs] <;> omega

theorem from_eq_of_nonneg {v : Int} (h : 0 ≤ v) :
    SignedInt.«from» v = ⟨v, Sign.Pos⟩ := by
  unfold SignedInt.«from» SignedInt.diff_of
  rw [if_pos (show v ≥ 0 from h)]
  simp

theorem sub_eq_nonneg (s : SignedInt) {r : Int} (hr : 0 ≤ r) :
    s.sub r = if s.sign = Sign.Neg then ⟨s.magnitude + r, Sign.Neg⟩
              else SignedInt.diff_of s.magnitude r := by
  unfold SignedInt.sub
  rw [dif_neg (fun h => absurd (from_sign_neg.mp h) (not_lt.mpr hr))]

theorem add_eq_nonneg (s : SignedInt) {r : Int} (hr : 0 ≤ r) :
    s.add r = if s.sign = Sign.Neg then (SignedInt.«from» r).sub s.magnitude
              else ⟨s.magnitude + r, Sign.Pos⟩ := by
  unfold SignedInt.add
  rw [dif_neg (fun h => absurd (from_sign_neg.mp h) (not_lt.mpr hr))]
  split <;> simp_all

theorem sub_eq_neg (s : SignedInt) {r : Int} (hr : r < 0) :
    s.sub r = s.add (0 - r) := by
  unfold SignedInt.sub
  rw [dif_pos (from_sign_neg.mpr hr), from_magnitude_eq_neg hr]

theorem add_eq_neg (s : SignedInt) {r : Int} (hr : r < 0) :
    s.add r = s.sub (0 - r) := by
  unfold SignedInt.add
  rw [dif_pos (from_sign_neg.mpr hr), from_magnitude_eq_neg hr]

theorem sign_not_neg {σ : Sign} (h : ¬ σ = Sign.Neg) : σ = Sign.Pos := by
  cases σ
  · rfl
  · exact absurd rfl h

theorem val_of_pos {s : SignedInt} (h : s.sign = Sign.Pos) : s.val = s.magnitude := by
  unfold SignedInt.val
  rw [h]

theorem val_of_neg {s : SignedInt} (h : s.sign = Sign.Neg) : s.val = -s.magnitude := by
  unfold SignedInt.val
  rw [h]

theorem sub_of_pos_sign {p : SignedInt} (hp : p.sign = Sign.Pos) (t : Int) :
    p.sub t = if t < 0 then ⟨p.magnitude + (0 - t), Sign.Pos⟩
              else SignedInt.diff_of p.magnitude t := by
  have hnp : ¬ p.sign = Sign.Neg := by rw [hp]; simp
  rcases lt_or_le t 0 with ht | ht
  · rw [if_pos ht, sub_eq_neg p ht, add_eq_nonneg p (by omega : (0:Int) ≤ 0 - t),
      if_neg hnp]
  · rw [if_neg (not_lt.mpr ht), sub_eq_nonneg p ht, if_neg hnp]

theorem sub_spec_nonneg {s : SignedInt} (hs : s.WF) {r : Int} (hr : 0 ≤ r) :
    (s.sub r).val = s.val - r ∧ (s.sub r).WF := by
  rw [sub_eq_nonneg s hr]
  by_cases h : s.sign = Sign.Neg
  · rw [if_pos h]
    have hm := hs.2 h
    have hv := val_of_neg h
    refine ⟨?_, ?_, ?_⟩
    · show -(s.magnitude + r) = s.val - r
      omega
    · show 0 ≤ s.magnitude + r
      omega
    · intro _
      show 0 < s.magnitude + r
      omega
  · rw [if_neg h]
    rw [val_of_pos (sign_not_neg h), diff_of_val]
    exact ⟨rfl, diff_of_WF _ _⟩

theorem add_spec_nonneg {s : SignedInt} (hs : s.WF) {r : Int} (hr : 0 ≤ r) :
    (s.add r).val = s.val + r ∧ (s.add r).WF := by
  rw [add_eq_nonneg s hr]
  by_cases h : s.sign = Sign.Neg
  · rw [if_pos h]
    have hm := hs.2 h
    have hv := val_of_neg h
    have hfromWF : (SignedInt.«from» r).WF := by
      rw [from_eq_of_nonneg hr]
      exact ⟨hr, fun hc => absurd hc (by simp)⟩
    have hspec := sub_spec_nonneg hfromWF hs.1
    have hfv : (SignedInt.«from» r).val = r := by
      rw [from_eq_of_nonneg hr, val_of_pos rfl]
    exact ⟨by rw [hspec.1, hfv]; omega, hspec.2⟩
  · rw [if_neg h]
    have hv := val_of_pos (sign_not_neg h)
    have h0 := hs.1
    refine ⟨by show s.magnitude + r = s.val + r; omega, by show 0 ≤ s.magnitude + r; omega, ?_⟩
    intro hc
    exact absurd hc (by simp)

theorem sub_spec {s : SignedInt} (hs : s.WF) (r : Int) :
    (s.sub r).val = s.val - r ∧ (s.sub r).WF := by
  rcases lt_or_le r 0 with hr | hr
  · rw [sub_eq_neg s hr]
    have h := add_spec_nonneg hs (show (0:Int) ≤ 0 - r by omega)
    exact ⟨by rw [h.1]; omega, h.2⟩
  · exact sub_spec_nonneg hs hr

theorem add_spec {s : SignedInt} (hs : s.WF) (r : Int) :
    (s.add r).val = s.val + r ∧ (s.add r).WF := by
  rcases lt_or_le r 0 with hr | hr
  · rw [add_eq_neg s hr]
    have h := sub_spec_nonneg hs (show (0:Int) ≤ 0 - r by omega)
    exact ⟨by rw [h.1]; omega, h.2⟩
  · exact add_spec_nonneg hs hr

/-- Closed (non-recursive) form of SignedInt.sub, used to evaluate the
function on concrete inputs; proved equal to the source translation below. -/
def SignedInt.subFn (s : SignedInt) (r : Int) : SignedInt :=
  if r < 0 then
    match s.sign with
    | Sign.Neg =>
        if s.magnitude < 0 then ⟨(0 - r) + (0 - s.magnitude), Sign.Pos⟩
        else SignedInt.diff_of (0 - r) s.magnitude
    | Sign.Pos => ⟨s.magnitude + (0 - r), Sign.Pos⟩
  else
    match s.sign with
    | Sign.Neg => ⟨s.magnitude + r, Sign.Neg⟩
    | Sign.Pos => SignedInt.diff_of s.magnitude r

/-- Closed (non-recursive) form of SignedInt.add. -/
def SignedInt.addFn (s : SignedInt) (r : Int) : SignedInt :=
  if r < 0 then
    match s.sign with
    | Sign.Neg => ⟨s.magnitude + (0 - r), Sign.Neg⟩
    | Sign.Pos => SignedInt.diff_of s.magnitude (0 - r)
  else
    match s.sign with
    | Sign.Neg =>
        if s.magnitude < 0 then ⟨r + (0 - s.magnitude), Sign.Pos⟩
        else SignedInt.diff_of r s.magnitude
    | Sign.Pos => ⟨s.magnitude + r, Sign.Pos⟩

theorem sub_eq_subFn (s : SignedInt) (r : Int) : s.sub r = s.subFn r := by
  unfold SignedInt.subFn
  rcases lt_or_le r 0 with hr | hr
  · rw [if_pos hr, sub_eq_neg s hr, add_eq_nonneg s (by omega : (0:Int) ≤ 0 - r)]
    by_cases h : s.sign = Sign.Neg
    · rw [if_pos h, from_eq_of_nonneg (by omega : (0:Int) ≤ 0 - r),
        sub_of_pos_sign rfl s.magnitude, h]
    · rw [if_neg h, sign_not_neg h]
  · rw [if_neg (not_lt.mpr hr), sub_eq_nonneg s hr]
    by_cases h : s.sign = Sign.Neg
    · rw [if_pos h, h]
    · rw [if_neg h, sign_not_neg h]

theorem add_eq_addFn (s : SignedInt) (r : Int) : s.add r = s.addFn r := by
  unfold SignedInt.addFn
  rcases lt_or_le r 0 with hr | hr
  · rw [if_pos hr, add_eq_neg s hr, sub_eq_nonneg s (by omega : (0:Int) ≤ 0 - r)]
    by_cases h : s.sign = Sign.Neg
    · rw [if_pos h, h]
    · rw [if_neg h, sign_not_neg h]
  · rw [if_neg (not_lt.mpr hr), add_eq_nonneg s hr]
    by_cases h : s.sign = Sign.Neg
    · rw [if_pos h, from_eq_of_nonneg hr, sub_of_pos_sign rfl s.magnitude, h]
    · rw [if_neg h, sign_not_neg h]

/-- One coordinate step of calculate_line (dominant axis: lines 178-187,
minor axis: lines 193-202): move one unit in the direction given by the
diff's sign; a Pos sign with zero magnitude means no net displacement, so
the coordinate stays put. -/
def stepCoord (d : SignedInt) (x : Int) : Int :=
  match d.sign with
  | Sign.Pos => if d.magnitude = 0 then x else x + 1
  | Sign.Neg => x - 1

/-- The point pushed at the end of each loop iteration (lines 205-209):
coordinates are swapped back when octant normalization swapped the axes. -/
def emit (swap_axes : Bool) (x y : Int) : Point :=
  if swap_axes then ⟨y, x⟩ else ⟨x, y⟩

/-- The main loop of calculate_line (lines 172-210).  The source counts
`i` upward from zero and exits as soon as `i >= high`, so the body runs
`high.toNat` times; the remaining iteration count is the Nat argument. -/
def bresenhamLoop (x_diff y_diff : SignedInt) (swap_axes : Bool) :
    Nat → Int → Int → SignedInt → List Point
  | 0, _, _, _ => []
  | n + 1, x, y, bd =>
    let x' := stepCoord x_diff x
    match bd.sign with
    | Sign.Neg =>
        emit swap_axes x' y ::
          bresenhamLoop x_diff y_diff swap_axes n x' y
            (bd.add (y_diff.magnitude * 2))
    | Sign.Pos =>
        let y' := stepCoord y_diff y
        emit swap_axes x' y' ::
          bresenhamLoop x_diff y_diff swap_axes n x' y'
            ((bd.add (y_diff.magnitude * 2)).sub (x_diff.magnitude * 2))

/-- calculate_line (lines 124-212), signed instantiation.  The two
mutable diffs and running coordinates of the source become the
post-normalization values x_diff/y_diff/x/y. -/
def calculate_line (p1 p2 : Point) : List Point :=
  let x_diff0 := SignedInt.diff_of p2.x p1.x
  let y_diff0 := SignedInt.diff_of p2.y p1.y
  let swap_axes : Bool := decide (x_diff0.magnitude < y_diff0.magnitude)
  let x_diff := if swap_axes then y_diff0 else x_diff0
  let y_diff := if swap_axes then x_diff0 else y_diff0
  let x := if swap_axes then p1.y else p1.x
  let y := if swap_axes then p1.x else p1.y
  let bresenham_diff :=
    SignedInt.diff_of (y_diff.magnitude * 2) x_diff.magnitude
  p1 :: bresenhamLoop x_diff y_diff swap_axes x_diff.magnitude.toNat x y
    bresenham_diff

/-- Direction of a coordinate step: stepCoord d x = x + dirOf d. -/
def dirOf (d : SignedInt) : Int :=
  match d.sign with
  | Sign.Pos => if d.magnitude = 0 then 0 else 1
  | Sign.Neg => -1

theorem stepCoord_eq (d : SignedInt) (x : Int) : stepCoord d x = x + dirOf d := by
  unfold stepCoord dirOf
  rcases h : d.sign <;> simp only [h]
  · split <;> omega
  · omega

/-- Twin of bresenhamLoop over the closed-form operations, for concrete
evaluation. -/
def bresenhamLoopFn (x_diff y_diff : SignedInt) (swap_axes : Bool) :
    Nat → Int → Int → SignedInt → List Point
  | 0, _, _, _ => []
  | n + 1, x, y, bd =>
    let x' := stepCoord x_diff x
    match bd.sign with
    | Sign.Neg =>
        emit swap_axes x' y ::
          bresenhamLoopFn x_diff y_diff swap_axes n x' y
            (bd.addFn (y_diff.magnitude * 2))
    | Sign.Pos =>
        let y' := stepCoord y_diff y
        emit swap_axes x' y' ::
          bresenhamLoopFn x_diff y_diff swap_axes n x' y'
            ((bd.addFn (y_diff.magnitude * 2)).subFn (x_diff.magnitude * 2))

theorem bresenhamLoop_eq_Fn (xd yd : SignedInt) (sw : Bool) :
    ∀ (n : Nat) (x y : Int) (bd : SignedInt),
      bresenhamLoop xd yd sw n x y bd = bresenhamLoopFn xd yd sw n x y bd := by
  intro n
  induction n with
  | zero => intro x y bd; rfl
  | succ n ih =>
    intro x y bd
    simp only [bresenhamLoop, bresenhamLoopFn]
    rcases hb : bd.sign <;> simp only [hb]
    · rw [add_eq_addFn, sub_eq_subFn, ih]
    · rw [add_eq_addFn, ih]

/-- Twin of calculate_line over the closed-form operations. -/
def calculate_lineFn (p1 p2 : Point) : List Point :=
  let x_diff0 := SignedInt.diff_of p2.x p1.x
  let y_diff0 := SignedInt.diff_of p2.y p1.y
  let swap_axes : Bool := decide (x_diff0.magnitude < y_diff0.magnitude)
  let x_diff := if swap_axes then y_diff0 else x_diff0
  let y_diff := if swap_axes then x_diff0 else y_diff0
  let x := if swap_axes then p1.y else p1.x
  let y := if swap_axes then p1.x else p1.y
  let bresenham_diff :=
    SignedInt.diff_of (y_diff.magnitude * 2) x_diff.magnitude
  p1 :: bresenhamLoopFn x_diff y_diff swap_axes x_diff.magnitude.toNat x y
    bresenham_diff

theorem calculate_line_eq_Fn (p1 p2 : Point) :
    calculate_line p1 p2 = calculate_lineFn p1 p2 := by
  simp only [calculate_line, calculate_lineFn, bresenhamLoop_eq_Fn]

theorem bresenhamLoop_length (xd yd : SignedInt) (sw : Bool) :
    ∀ (n : Nat) (x y : Int) (bd : SignedInt),
      (bresenhamLoop xd yd sw n x y bd).length = n := by
  intro n
  induction n with
  | zero => intro x y bd; rfl
  | succ n ih =>
    intro x y bd
    simp only [bresenhamLoop]
    rcases hb : bd.sign <;> simp only [hb, List.length_cons, ih]

theorem WF_val_nonneg_of_pos {s : SignedInt} (h : s.WF) (hp : s.sign = Sign.Pos) :
    0 ≤ s.val := by
  rw [val_of_pos hp]
  exact h.1

theorem dirOf_pos {d : SignedInt} (hp : d.sign = Sign.Pos) (h : d.magnitude ≠ 0) :
    dirOf d = 1 := by
  unfold dirOf
  rw [hp]
  exact if_neg h

theorem dirOf_zero {d : SignedInt} (hp : d.sign = Sign.Pos) (h : d.magnitude = 0) :
    dirOf d = 0 := by
  unfold dirOf
  rw [hp]
  exact if_pos h

theorem dirOf_neg {d : SignedInt} (hn : d.sign = Sign.Neg) : dirOf d = -1 := by
  unfold dirOf
  rw [hn]

theorem dirOf_pm {d : SignedInt} (h : d.magnitude ≠ 0) :
    dirOf d = 1 ∨ dirOf d = -1 := by
  by_cases hs : d.sign = Sign.Neg
  · exact Or.inr (dirOf_neg hs)
  · exact Or.inl (dirOf_pos (sign_not_neg hs) h)

theorem dirOf_cases (d : SignedInt) :
    dirOf d = 0 ∨ dirOf d = 1 ∨ dirOf d = -1 := by
  by_cases hs : d.sign = Sign.Neg
  · exact Or.inr (Or.inr (dirOf_neg hs))
  · by_cases hm : d.magnitude = 0
    · exact Or.inl (dirOf_zero (sign_not_neg hs) hm)
    · exact Or.inr (Or.inl (dirOf_pos (sign_not_neg hs) hm))

/-- u lies between a and b, inclusively, in either order. -/
def between (a b u : Int) : Prop := (a ≤ u ∧ u ≤ b) ∨ (b ≤ u ∧ u ≤ a)

theorem between_refl_left (a c : Int) : between a c a := by
  unfold between
  rcases le_total a c with h | h
  · exact Or.inl ⟨le_refl a, h⟩
  · exact Or.inr ⟨h, le_refl a⟩

theorem between_first_dom {d : Int} (hd : d = 1 ∨ d = -1) (x : Int) (n : Nat) :
    between x (x + d * ((n : Int) + 1)) (x + d) := by
  rcases hd with h | h <;> subst h <;> unfold between <;> omega

theorem between_extend_dom {d : Int} (hd : d = 1 ∨ d = -1) (x u : Int) (n : Nat)
    (h : between (x + d) (x + d + d * (n : Int)) u) :
    between x (x + d * ((n : Int) + 1)) u := by
  rcases hd with h1 | h1 <;> subst h1 <;> unfold between at * <;> omega

theorem between_first_minor {d : Int} (hd : d = 0 ∨ d = 1 ∨ d = -1) (y F : Int)
    (hF : 1 ≤ F) : between y (y + d * F) (y + d) := by
  rcases hd with h | h | h <;> subst h <;> unfold between <;> omega

theorem between_extend_minor {d : Int} (hd : d = 0 ∨ d = 1 ∨ d = -1) (y u F : Int)
    (hF : 1 ≤ F) (h : between (y + d) (y + d + d * (F - 1)) u) :
    between y (y + d * F) u := by
  rcases hd with h1 | h1 | h1 <;> subst h1 <;> unfold between at * <;>
    simp only [mul_zero, zero_mul, one_mul, neg_mul] at * <;> omega

theorem F_nonneg {a F : Int} (ha : 0 < a) (h : -a ≤ 2 * a * F) : 0 ≤ F := by
  by_contra hF
  have h1 : F ≤ -1 := by omega
  have h2 : 2 * a * F ≤ 2 * a * (-1) := mul_le_mul_of_nonneg_left h1 (by omega)
  nlinarith

theorem F_eq_zero {a F : Int} (ha : 0 < a) (hlo : -a ≤ 2 * a * F)
    (hhi : 2 * a * F ≤ a - 1) : F = 0 := by
  have h0 : 0 ≤ F := F_nonneg ha hlo
  by_contra hF
  have h1 : 1 ≤ F := by omega
  have h2 : 2 * a * 1 ≤ 2 * a * F := mul_le_mul_of_nonneg_left h1 (by omega)
  nlinarith

/-- Relation between consecutive points of the emitted line: the
dominant-axis coordinate advances by exactly dirOf x_diff, the minor-axis
coordinate either stays or advances by dirOf y_diff. -/
def stepRel (x_diff y_diff : SignedInt) (swap_axes : Bool) (p q : Point) : Prop :=
  (if swap_axes then q.y else q.x) = (if swap_axes then p.y else p.x) + dirOf x_diff ∧
  ((if swap_axes then q.x else q.y) = (if swap_axes then p.x else p.y) ∨
   (if swap_axes then q.x else q.y) = (if swap_axes then p.x else p.y) + dirOf y_diff)

theorem emit_dom (sw : Bool) (x y : Int) :
    (if sw then (emit sw x y).y else (emit sw x y).x) = x := by
  cases sw <;> rfl

theorem emit_min (sw : Bool) (x y : Int) :
    (if sw then (emit sw x y).x else (emit sw x y).y) = y := by
  cases sw <;> rfl

/-- Master invariant of the Bresenham loop.  With a := x_diff.magnitude,
b := y_diff.magnitude, 0 < a, 0 ≤ b ≤ a, the decision variable stays in
the window 2b-2a .. 2b-1; F is the number of minor-axis steps the
remaining n iterations will take (pinned by the exactness equation
2aF = 2bn + val + a - 2b).  Conclusions: the last point, the step
relation along the whole list, and the bounding box of every point. -/
theorem loop_main (xd yd : SignedInt) (sw : Bool)
    (ha : 0 < xd.magnitude) (hb0 : 0 ≤ yd.magnitude)
    (hba : yd.magnitude ≤ xd.magnitude) :
    ∀ (n : Nat) (x y : Int) (bd : SignedInt) (F : Int),
      bd.WF →
      2 * yd.magnitude - 2 * xd.magnitude ≤ bd.val →
      bd.val ≤ 2 * yd.magnitude - 1 →
      2 * xd.magnitude * F =
        2 * yd.magnitude * (n : Int) + bd.val + xd.magnitude - 2 * yd.magnitude →
      (emit sw x y :: bresenhamLoop xd yd sw n x y bd).getLast? =
          some (emit sw (x + dirOf xd * (n : Int)) (y + dirOf yd * F)) ∧
      List.Chain' (stepRel xd yd sw) (emit sw x y :: bresenhamLoop xd yd sw n x y bd) ∧
      ∀ p ∈ bresenhamLoop xd yd sw n x y bd,
        between x (x + dirOf xd * (n : Int)) (if sw then p.y else p.x) ∧
        between y (y + dirOf yd * F) (if sw then p.x else p.y) := by
  intro n
  induction n with
  | zero =>
    intro x y bd F hWF hlo hhi hF
    have hF1 : 2 * xd.magnitude * F = bd.val + xd.magnitude - 2 * yd.magnitude := by
      push_cast at hF
      linarith
    have hF0 : F = 0 := F_eq_zero ha (by linarith) (by linarith)
    subst hF0
    refine ⟨?_, ?_, ?_⟩
    · simp [bresenhamLoop]
    · simp [bresenhamLoop]
    · intro p hp
      simp [bresenhamLoop] at hp
  | succ n ih =>
    intro x y bd F hWF hlo hhi hF
    have hdx : dirOf xd = 1 ∨ dirOf xd = -1 := dirOf_pm (by omega)
    have hx' : stepCoord xd x = x + dirOf xd := stepCoord_eq xd x
    have hcast : ((n + 1 : Nat) : Int) = (n : Int) + 1 := by push_cast; ring
    rcases hb : bd.sign
    · -- decision variable non-negative: the minor axis steps as well
      have hv0 : 0 ≤ bd.val := WF_val_nonneg_of_pos hWF hb
      have hy' : stepCoord yd y = y + dirOf yd := stepCoord_eq yd y
      have hunf : bresenhamLoop xd yd sw (n + 1) x y bd =
          emit sw (stepCoord xd x) (stepCoord yd y) ::
            bresenhamLoop xd yd sw n (stepCoord xd x) (stepCoord yd y)
              ((bd.add (yd.magnitude * 2)).sub (xd.magnitude * 2)) := by
        simp only [bresenhamLoop, hb]
      have hadd := add_spec hWF (yd.magnitude * 2)
      have hsub := sub_spec hadd.2 (xd.magnitude * 2)
      have hval' : ((bd.add (yd.magnitude * 2)).sub (xd.magnitude * 2)).val =
          bd.val + 2 * yd.magnitude - 2 * xd.magnitude := by
        rw [hsub.1, hadd.1]
        ring
      have hlo' : 2 * yd.magnitude - 2 * xd.magnitude ≤
          ((bd.add (yd.magnitude * 2)).sub (xd.magnitude * 2)).val := by
        rw [hval']
        linarith
      have hhi' : ((bd.add (yd.magnitude * 2)).sub (xd.magnitude * 2)).val ≤
          2 * yd.magnitude - 1 := by
        rw [hval']
        linarith
      have hF' : 2 * xd.magnitude * (F - 1) =
          2 * yd.magnitude * (n : Int) +
            ((bd.add (yd.magnitude * 2)).sub (xd.magnitude * 2)).val +
            xd.magnitude - 2 * yd.magnitude := by
        rw [hval']
        rw [hcast] at hF
        linarith
      have hbn : 0 ≤ 2 * yd.magnitude * (n : Int) :=
        mul_nonneg (by omega) (by positivity)
      have hF1 : 1 ≤ F := by
        have := F_nonneg ha (by linarith : -xd.magnitude ≤ 2 * xd.magnitude * (F - 1))
        omega
      have hdy : dirOf yd = 0 ∨ dirOf yd = 1 ∨ dirOf yd = -1 := dirOf_cases yd
      obtain ⟨ihLast, ihChain, ihBox⟩ :=
        ih (stepCoord xd x) (stepCoord yd y)
          ((bd.add (yd.magnitude * 2)).sub (xd.magnitude * 2)) (F - 1)
          hsub.2 hlo' hhi' hF'
      refine ⟨?_, ?_, ?_⟩
      · rw [hunf, List.getLast?_cons_cons, ihLast]
        congr 2
        · rw [hx', hcast]
          ring
        · rw [hy']
          ring
      · rw [hunf, List.chain'_cons]
        refine ⟨?_, ihChain⟩
        unfold stepRel
        rw [emit_dom, emit_min, emit_dom, emit_min, hx', hy']
        exact ⟨rfl, Or.inr rfl⟩
      · rw [hunf]
        intro p hp
        rcases List.mem_cons.mp hp with hp | hp
        · subst hp
          rw [emit_dom, emit_min, hx', hy', hcast]
          exact ⟨between_first_dom hdx x n, between_first_minor hdy y F hF1⟩
        · have hbox := ihBox p hp
          rw [hx', hy'] at hbox
          rw [hcast]
          exact ⟨between_extend_dom hdx x _ n hbox.1,
            between_extend_minor hdy y _ F hF1 hbox.2⟩
    · -- decision variable negative: only the dominant axis steps
      have hvneg : bd.val < 0 := (WF_sign_neg_iff hWF).mp hb
      have hunf : bresenhamLoop xd yd sw (n + 1) x y bd =
          emit sw (stepCoord xd x) y ::
            bresenhamLoop xd yd sw n (stepCoord xd x) y
              (bd.add (yd.magnitude * 2)) := by
        simp only [bresenhamLoop, hb]
      have hadd := add_spec hWF (yd.magnitude * 2)
      have hval' : (bd.add (yd.magnitude * 2)).val = bd.val + 2 * yd.magnitude := by
        rw [hadd.1]
        ring
      have hlo' : 2 * yd.magnitude - 2 * xd.magnitude ≤
          (bd.add (yd.magnitude * 2)).val := by
        rw [hval']
        linarith
      have hhi' : (bd.add (yd.magnitude * 2)).val ≤ 2 * yd.magnitude - 1 := by
        rw [hval']
        linarith
      have hF' : 2 * xd.magnitude * F =
          2 * yd.magnitude * (n : Int) + (bd.add (yd.magnitude * 2)).val +
            xd.magnitude - 2 * yd.magnitude := by
        rw [hval']
        rw [hcast] at hF
        linarith
      obtain ⟨ihLast, ihChain, ihBox⟩ :=
        ih (stepCoord xd x) y (bd.add (yd.magnitude * 2)) F hadd.2 hlo' hhi' hF'
      refine ⟨?_, ?_, ?_⟩
      · rw [hunf, List.getLast?_cons_cons, ihLast]
        congr 2
        rw [hx', hcast]
        ring
      · rw [hunf, List.chain'_cons]
        refine ⟨?_, ihChain⟩
        unfold stepRel
        rw [emit_dom, emit_min, emit_dom, emit_min, hx']
        exact ⟨rfl, Or.inl rfl⟩
      · rw [hunf]
        intro p hp
        rcases List.mem_cons.mp hp with hp | hp
        · subst hp
          rw [emit_dom, emit_min, hx', hcast]
          exact ⟨between_first_dom hdx x n, between_refl_left y _⟩
        · have hbox := ihBox p hp
          rw [hx'] at hbox
          rw [hcast]
          exact ⟨between_extend_dom hdx x _ n hbox.1, hbox.2⟩

theorem add_dir_mul_mag (t s : Int) :
    s + dirOf (SignedInt.diff_of t s) * (SignedInt.diff_of t s).magnitude = t := by
  unfold SignedInt.diff_of
  split
  · show s + dirOf ⟨t - s, Sign.Pos⟩ * (t - s) = t
    show s + (if t - s = 0 then 0 else 1) * (t - s) = t
    split <;> omega
  · show s + dirOf ⟨s - t, Sign.Neg⟩ * (s - t) = t
    show s + (-1) * (s - t) = t
    omega

theorem dirOf_diff_nonneg {t s : Int} (h : s ≤ t) :
    0 ≤ dirOf (SignedInt.diff_of t s) := by
  by_cases hm : (SignedInt.diff_of t s).magnitude = 0
  · rw [dirOf_zero (diff_of_sign_pos.mpr h) hm]
  · rw [dirOf_pos (diff_of_sign_pos.mpr h) hm]
    omega

theorem dirOf_diff_neg {t s : Int} (h : t < s) :
    dirOf (SignedInt.diff_of t s) = -1 :=
  dirOf_neg (diff_of_sign_neg.mpr h)

/-- Conclusions of the loop for the concrete initial state built by
calculate_line, in post-normalization coordinates: x0,y0 are the starting
running coordinates, xt,yt the corresponding coordinates of p2. -/
theorem calc_post (xd yd : SignedInt) (sw : Bool) (x0 y0 xt yt : Int)
    (ha : 0 < xd.magnitude) (hba : yd.magnitude ≤ xd.magnitude)
    (hxd : xd = SignedInt.diff_of xt x0) (hyd : yd = SignedInt.diff_of yt y0) :
    (emit sw x0 y0 ::
        bresenhamLoop xd yd sw xd.magnitude.toNat x0 y0
          (SignedInt.diff_of (yd.magnitude * 2) xd.magnitude)).getLast? =
        some (emit sw xt yt) ∧
    List.Chain' (stepRel xd yd sw)
      (emit sw x0 y0 ::
        bresenhamLoop xd yd sw xd.magnitude.toNat x0 y0
          (SignedInt.diff_of (yd.magnitude * 2) xd.magnitude)) ∧
    ∀ p ∈ bresenhamLoop xd yd sw xd.magnitude.toNat x0 y0
        (SignedInt.diff_of (yd.magnitude * 2) xd.magnitude),
      between x0 xt (if sw then p.y else p.x) ∧
      between y0 yt (if sw then p.x else p.y) := by
  have hb0 : 0 ≤ yd.magnitude := by
    rw [hyd]
    exact (diff_of_WF _ _).1
  have hn : ((xd.magnitude.toNat : Nat) : Int) = xd.magnitude :=
    Int.toNat_of_nonneg (by omega)
  have hWF0 : (SignedInt.diff_of (yd.magnitude * 2) xd.magnitude).WF :=
    diff_of_WF _ _
  have hv0 : (SignedInt.diff_of (yd.magnitude * 2) xd.magnitude).val =
      2 * yd.magnitude - xd.magnitude := by
    rw [diff_of_val]
    ring
  have hxt : x0 + dirOf xd * xd.magnitude = xt := by
    rw [hxd]
    exact add_dir_mul_mag xt x0
  have hyt : y0 + dirOf yd * yd.magnitude = yt := by
    rw [hyd]
    exact add_dir_mul_mag yt y0
  obtain ⟨hLast, hChain, hBox⟩ :=
    loop_main xd yd sw ha hb0 hba xd.magnitude.toNat x0 y0
      (SignedInt.diff_of (yd.magnitude * 2) xd.magnitude) yd.magnitude
      hWF0 (by rw [hv0]; omega) (by rw [hv0]; omega)
      (by rw [hv0, hn]; ring)
  rw [hn] at hLast hBox
  rw [hxt, hyt] at hLast
  refine ⟨hLast, hChain, ?_⟩
  intro p hp
  have := hBox p hp
  rw [hxt, hyt] at this
  exact this

theorem point_eta (p : Point) : (⟨p.x, p.y⟩ : Point) = p := rfl

/-- Master correctness theorem for calculate_line over the signed
instantiation, phrased directly in terms of the two endpoints: head, last,
length, the per-step relation along the list, and the bounding box. -/
theorem calculate_line_master (p1 p2 : Point) :
    (calculate_line p1 p2).head? = some p1 ∧
    (calculate_line p1 p2).getLast? = some p2 ∧
    (calculate_line p1 p2).length =
      max (p2.x - p1.x).natAbs (p2.y - p1.y).natAbs + 1 ∧
    List.Chain' (fun p q : Point =>
      (q.x = p.x ∨ q.x = p.x + dirOf (SignedInt.diff_of p2.x p1.x)) ∧
      (q.y = p.y ∨ q.y = p.y + dirOf (SignedInt.diff_of p2.y p1.y)) ∧
      ¬(q.x = p.x ∧ q.y = p.y)) (calculate_line p1 p2) ∧
    ∀ p ∈ calculate_line p1 p2, between p1.x p2.x p.x ∧ between p1.y p2.y p.y := by
  have hmagx : (SignedInt.diff_of p2.x p1.x).magnitude =
      ((p2.x - p1.x).natAbs : Int) := diff_of_magnitude _ _
  have hmagy : (SignedInt.diff_of p2.y p1.y).magnitude =
      ((p2.y - p1.y).natAbs : Int) := diff_of_magnitude _ _
  by_cases hsw : (SignedInt.diff_of p2.x p1.x).magnitude <
      (SignedInt.diff_of p2.y p1.y).magnitude
  · -- axes swapped: the y axis is dominant
    have hsw' : decide ((SignedInt.diff_of p2.x p1.x).magnitude <
        (SignedInt.diff_of p2.y p1.y).magnitude) = true := decide_eq_true hsw
    have hline : calculate_line p1 p2 =
        p1 :: bresenhamLoop (SignedInt.diff_of p2.y p1.y)
          (SignedInt.diff_of p2.x p1.x) true
          (SignedInt.diff_of p2.y p1.y).magnitude.toNat p1.y p1.x
          (SignedInt.diff_of ((SignedInt.diff_of p2.x p1.x).magnitude * 2)
            (SignedInt.diff_of p2.y p1.y).magnitude) := by
      simp only [calculate_line, hsw']
      rfl
    have ha : 0 < (SignedInt.diff_of p2.y p1.y).magnitude := by omega
    have hemit : emit true p1.y p1.x = p1 := rfl
    obtain ⟨hLast, hChain, hBox⟩ :=
      calc_post (SignedInt.diff_of p2.y p1.y) (SignedInt.diff_of p2.x p1.x)
        true p1.y p1.x p2.y p2.x ha (le_of_lt hsw) rfl rfl
    rw [hemit] at hLast hChain
    have hemit2 : emit true p2.y p2.x = p2 := rfl
    rw [hemit2] at hLast
    refine ⟨?_, ?_, ?_, ?_, ?_⟩
    · rw [hline]
      rfl
    · rw [hline]
      exact hLast
    · rw [hline, List.length_cons, bresenhamLoop_length]
      omega
    · rw [hline]
      refine List.Chain'.imp ?_ hChain
      intro p q hpq
      obtain ⟨h1, h2⟩ := hpq
      have h1' : q.y = p.y + dirOf (SignedInt.diff_of p2.y p1.y) := h1
      have h2' : q.x = p.x ∨ q.x = p.x + dirOf (SignedInt.diff_of p2.x p1.x) := h2
      have hdir : dirOf (SignedInt.diff_of p2.y p1.y) = 1 ∨
          dirOf (SignedInt.diff_of p2.y p1.y) = -1 := dirOf_pm (by omega)
      refine ⟨h2', Or.inr h1', ?_⟩
      intro hc
      rw [hc.2] at h1'
      omega
    · rw [hline]
      intro p hp
      rcases List.mem_cons.mp hp with hp | hp
      · subst hp
        exact ⟨between_refl_left _ _, between_refl_left _ _⟩
      · have hb := hBox p hp
        have hb1 : between p1.y p2.y p.y := hb.1
        have hb2 : between p1.x p2.x p.x := hb.2
        exact ⟨hb2, hb1⟩
  · -- axes not swapped: the x axis is dominant
    have hsw' : decide ((SignedInt.diff_of p2.x p1.x).magnitude <
        (SignedInt.diff_of p2.y p1.y).magnitude) = false := decide_eq_false hsw
    have hline : calculate_line p1 p2 =
        p1 :: bresenhamLoop (SignedInt.diff_of p2.x p1.x)
          (SignedInt.diff_of p2.y p1.y) false
          (SignedInt.diff_of p2.x p1.x).magnitude.toNat p1.x p1.y
          (SignedInt.diff_of ((SignedInt.diff_of p2.y p1.y).magnitude * 2)
            (SignedInt.diff_of p2.x p1.x).magnitude) := by
      simp only [calculate_line, hsw']
      rfl
    by_cases hz : (SignedInt.diff_of p2.x p1.x).magnitude = 0
    · -- degenerate case p1 = p2: single-point line
      have hzy : (SignedInt.diff_of p2.y p1.y).magnitude = 0 := by omega
      have hx12 : p2.x = p1.x := by omega
      have hy12 : p2.y = p1.y := by omega
      have hp12 : p2 = p1 := by
        rw [← point_eta p2, ← point_eta p1, hx12, hy12]
      have hlist : calculate_line p1 p2 = [p1] := by
        rw [hline, hz]
        rfl
      rw [hlist, hp12]
      refine ⟨rfl, rfl, by simp [hx12, hy12], by simp, ?_⟩
      intro p hp
      rw [List.mem_singleton] at hp
      subst hp
      exact ⟨between_refl_left _ _, between_refl_left _ _⟩
    · have ha : 0 < (SignedInt.diff_of p2.x p1.x).magnitude := by
        have := (diff_of_WF p2.x p1.x).1
        omega
      have hemit : emit false p1.x p1.y = p1 := rfl
      obtain ⟨hLast, hChain, hBox⟩ :=
        calc_post (SignedInt.diff_of p2.x p1.x) (SignedInt.diff_of p2.y p1.y)
          false p1.x p1.y p2.x p2.y ha (by omega) rfl rfl
      rw [hemit] at hLast hChain
      have hemit2 : emit false p2.x p2.y = p2 := rfl
      rw [hemit2] at hLast
      refine ⟨?_, ?_, ?_, ?_, ?_⟩
      · rw [hline]
        rfl
      · rw [hline]
        exact hLast
      · rw [hline, List.length_cons, bresenhamLoop_length]
        omega
      · rw [hline]
        refine List.Chain'.imp ?_ hChain
        intro p q hpq
        obtain ⟨h1, h2⟩ := hpq
        have h1' : q.x = p.x + dirOf (SignedInt.diff_of p2.x p1.x) := h1
        have h2' : q.y = p.y ∨ q.y = p.y + dirOf (SignedInt.diff_of p2.y p1.y) := h2
        have hdir : dirOf (SignedInt.diff_of p2.x p1.x) = 1 ∨
            dirOf (SignedInt.diff_of p2.x p1.x) = -1 := dirOf_pm (by omega)
        refine ⟨Or.inr h1', h2', ?_⟩
        intro hc
        rw [hc.1] at h1'
        omega
      · rw [hline]
        intro p hp
        rcases List.mem_cons.mp hp with hp | hp
        · subst hp
          exact ⟨between_refl_left _ _, between_refl_left _ _⟩
        · have hb := hBox p hp
          have hb1 : between p1.x p2.x p.x := hb.1
          have hb2 : between p1.y p2.y p.y := hb.2
          exact ⟨hb1, hb2⟩

/-- C1: for every pair of endpoints, the sequence returned by
calculate_line is non-empty, its first element equals p1 and its last
element equals p2 (the Int embedding carries the representability
precondition: arithmetic never overflows). -/
theorem claim_C1 (p1 p2 : Point) :
    calculate_line p1 p2 ≠ [] ∧
    (calculate_line p1 p2).head? = some p1 ∧
    (calculate_line p1 p2).getLast? = some p2 := by
  obtain ⟨h1, h2, _, _, _⟩ := calculate_line_master p1 p2
  refine ⟨?_, h1, h2⟩
  intro hnil
  rw [hnil] at h1
  simp at h1

/-- C2: the length of the returned sequence is
max (abs (p2.x - p1.x)) (abs (p2.y - p1.y)) + 1, and in particular
calculate_line p p = the single-element sequence containing p. -/
theorem claim_C2 (p1 p2 : Point) :
    (calculate_line p1 p2).length =
      max (p2.x - p1.x).natAbs (p2.y - p1.y).natAbs + 1 ∧
    (p1 = p2 → calculate_line p1 p2 = [p1]) := by
  obtain ⟨h1, _, h3, _, _⟩ := calculate_line_master p1 p2
  refine ⟨h3, ?_⟩
  intro h
  subst h
  have hl : (calculate_line p1 p1).length = 1 := by
    rw [h3]
    simp
  rcases hcl : calculate_line p1 p1 with _ | ⟨a, l⟩
  · rw [hcl] at hl
    simp at hl
  · rw [hcl] at hl h1
    simp at hl h1
    rw [h1, hl]

theorem claim_C2_witness :
    (calculate_line ⟨3, 9⟩ ⟨3, 9⟩).length =
      max ((3 : Int) - 3).natAbs ((9 : Int) - 9).natAbs + 1 ∧
    calculate_line ⟨3, 9⟩ ⟨3, 9⟩ = [⟨3, 9⟩] :=
  ⟨(claim_C2 ⟨3, 9⟩ ⟨3, 9⟩).1, (claim_C2 ⟨3, 9⟩ ⟨3, 9⟩).2 rfl⟩

/-- C3: consecutive points of the returned sequence differ by at most one
unit on each axis and no two consecutive points are equal (vacuous for the
degenerate single-point sequence). -/
theorem claim_C3 (p1 p2 : Point) :
    List.Chain' (fun p q : Point =>
      (q.x - p.x).natAbs ≤ 1 ∧ (q.y - p.y).natAbs ≤ 1 ∧ q ≠ p)
      (calculate_line p1 p2) := by
  obtain ⟨_, _, _, h4, _⟩ := calculate_line_master p1 p2
  refine List.Chain'.imp ?_ h4
  intro p q hpq
  obtain ⟨h1, h2, h3⟩ := hpq
  have hdx := dirOf_cases (SignedInt.diff_of p2.x p1.x)
  have hdy := dirOf_cases (SignedInt.diff_of p2.y p1.y)
  refine ⟨by omega, by omega, ?_⟩
  intro hqp
  exact h3 ⟨by rw [hqp], by rw [hqp]⟩

/-- C4: along the returned sequence, the x coordinates are non-decreasing
when p2.x is at least p1.x and non-increasing when p2.x is below p1.x, and
likewise for the y coordinates. -/
theorem claim_C4 (p1 p2 : Point) :
    List.Chain' (fun p q : Point =>
      (p1.x ≤ p2.x → p.x ≤ q.x) ∧ (p2.x < p1.x → q.x ≤ p.x) ∧
      (p1.y ≤ p2.y → p.y ≤ q.y) ∧ (p2.y < p1.y → q.y ≤ p.y))
      (calculate_line p1 p2) := by
  obtain ⟨_, _, _, h4, _⟩ := calculate_line_master p1 p2
  refine List.Chain'.imp ?_ h4
  intro p q hpq
  obtain ⟨h1, h2, _⟩ := hpq
  refine ⟨?_, ?_, ?_, ?_⟩
  · intro hle
    have := dirOf_diff_nonneg hle
    omega
  · intro hlt
    have := dirOf_diff_neg hlt
    omega
  · intro hle
    have := dirOf_diff_nonneg hle
    omega
  · intro hlt
    have := dirOf_diff_neg hlt
    omega

/-- C9: concrete scenario A, the steep descending line from (3,9) to
(1,1). -/
theorem claim_C9 :
    calculate_line ⟨3, 9⟩ ⟨1, 1⟩ =
      [⟨3, 9⟩, ⟨3, 8⟩, ⟨2, 7⟩, ⟨2, 6⟩, ⟨2, 5⟩, ⟨2, 4⟩, ⟨1, 3⟩, ⟨1, 2⟩, ⟨1, 1⟩] := by
  rw [calculate_line_eq_Fn]
  decide

/-- C5: reading a well-formed signed-magnitude value as the integer
val (magnitude when Pos, negated magnitude when Neg), the operations
compute exact integer arithmetic: add adds, sub subtracts, and diff_of a b
represents a - b. -/
theorem claim_C5 (sm : SignedInt) (rhs a b : Int) (h : sm.WF) :
    (sm.add rhs).val = sm.val + rhs ∧
    (sm.sub rhs).val = sm.val - rhs ∧
    (SignedInt.diff_of a b).val = a - b :=
  ⟨(add_spec h rhs).1, (sub_spec h rhs).1, diff_of_val a b⟩

theorem claim_C5_witness :
    SignedInt.WF ⟨5, Sign.Pos⟩ ∧
    ((⟨5, Sign.Pos⟩ : SignedInt).add (-3)).val =
      (⟨5, Sign.Pos⟩ : SignedInt).val + (-3) ∧
    ((⟨5, Sign.Pos⟩ : SignedInt).sub (-3)).val =
      (⟨5, Sign.Pos⟩ : SignedInt).val - (-3) ∧
    (SignedInt.diff_of 2 7).val = 2 - 7 := by
  have h : SignedInt.WF ⟨5, Sign.Pos⟩ := by decide
  have hc := claim_C5 ⟨5, Sign.Pos⟩ (-3) 2 7 h
  exact ⟨h, hc.1, hc.2.1, hc.2.2⟩

/-- C6: every value produced by diff_of, from, add or sub satisfies the
class invariant (Neg sign forces a strictly positive magnitude, so there
is no negative zero), add and sub preserving it from their input. -/
theorem claim_C6 (a b v rhs : Int) (sm : SignedInt) (h : sm.WF) :
    (SignedInt.diff_of a b).WF ∧ (SignedInt.«from» v).WF ∧
    (sm.add rhs).WF ∧ (sm.sub rhs).WF :=
  ⟨diff_of_WF a b, diff_of_WF v 0, (add_spec h rhs).2, (sub_spec h rhs).2⟩

theorem claim_C6_witness :
    SignedInt.WF ⟨4, Sign.Neg⟩ ∧
    (SignedInt.diff_of 3 8).WF ∧ (SignedInt.«from» (-6)).WF ∧
    ((⟨4, Sign.Neg⟩ : SignedInt).add 9).WF ∧
    ((⟨4, Sign.Neg⟩ : SignedInt).sub 9).WF := by
  have h : SignedInt.WF ⟨4, Sign.Neg⟩ := by decide
  have hc := claim_C6 3 8 (-6) 9 ⟨4, Sign.Neg⟩ h
  exact ⟨h, hc.1, hc.2.1, hc.2.2.1, hc.2.2.2⟩

namespace Unsigned

/-- Point at an unsigned instantiation (u8/u16/u32/usize): coordinates are
Nat under the no-overflow precondition. -/
structure Point where
  x : Nat
  y : Nat
deriving DecidableEq

/-- SignedInt instantiated at an unsigned type: magnitude is a Nat.
Subtraction of the underlying type is Nat subtraction, which truncates at
zero exactly where a Rust unsigned subtraction would be out of contract. -/
structure SignedInt where
  magnitude : Nat
  sign : Sign
deriving DecidableEq

/-- SignedInt::diff_of (lines 69-81) at an unsigned type. -/
def SignedInt.diff_of (a b : Nat) : SignedInt :=
  if a ≥ b then
    ⟨a - b, Sign.Pos⟩
  else
    ⟨b - a, Sign.Neg⟩

/-- SignedInt::from (lines 83-85) at an unsigned type. -/
def SignedInt.«from» (v : Nat) : SignedInt :=
  SignedInt.diff_of v 0

theorem from_sign_pos (v : Nat) : (SignedInt.«from» v).sign = Sign.Pos := by
  unfold SignedInt.«from» SignedInt.diff_of
  rw [if_pos (Nat.zero_le v)]

mutual

/-- SignedInt::sub (lines 87-103) at an unsigned type. -/
def SignedInt.sub (s : SignedInt) (rhs : Nat) : SignedInt :=
  if h : (SignedInt.«from» rhs).sign = Sign.Neg then
    s.add (SignedInt.«from» rhs).magnitude
  else if s.sign = Sign.Neg then
    ⟨s.magnitude + rhs, Sign.Neg⟩
  else
    SignedInt.diff_of s.magnitude rhs
termination_by (0 : Nat)
decreasing_by
  exact absurd (from_sign_pos rhs) (by rw [h]; simp)

/-- SignedInt::add (lines 105-121) at an unsigned type. -/
def SignedInt.add (s : SignedInt) (rhs : Nat) : SignedInt :=
  if h : (SignedInt.«from» rhs).sign = Sign.Neg then
    s.sub (SignedInt.«from» rhs).magnitude
  else if hs : s.sign = Sign.Neg then
    (SignedInt.«from» rhs).sub s.magnitude
  else
    ⟨s.magnitude + rhs, Sign.Pos⟩
termination_by (if s.sign = Sign.Neg then 1 else 0 : Nat)
decreasing_by
  · exact absurd (from_sign_pos rhs) (by rw [h]; simp)
  · rw [if_pos hs]
    omega

end

theorem sub_eq (s : SignedInt) (r : Nat) :
    s.sub r = if s.sign = Sign.Neg then ⟨s.magnitude + r, Sign.Neg⟩
              else SignedInt.diff_of s.magnitude r := by
  unfold SignedInt.sub
  rw [dif_neg (by rw [from_sign_pos]; simp)]

theorem add_eq (s : SignedInt) (r : Nat) :
    s.add r = if s.sign = Sign.Neg then (SignedInt.«from» r).sub s.magnitude
              else ⟨s.magnitude + r, Sign.Pos⟩ := by
  unfold SignedInt.add
  rw [dif_neg (by rw [from_sign_pos]; simp)]
  split <;> simp_all

/-- Coordinate step at an unsigned type; the Neg-branch decrement is the
truncated Nat subtraction. -/
def stepCoord (d : SignedInt) (x : Nat) : Nat :=
  match d.sign with
  | Sign.Pos => if d.magnitude = 0 then x else x + 1
  | Sign.Neg => x - 1

def emit (swap_axes : Bool) (x y : Nat) : Point :=
  if swap_axes then ⟨y, x⟩ else ⟨x, y⟩

/-- The main loop of calculate_line at an unsigned type; the counter
comparison i < high is Nat comparison, so the body runs high times. -/
def bresenhamLoop (x_diff y_diff : SignedInt) (swap_axes : Bool) :
    Nat → Nat → Nat → SignedInt → List Point
  | 0, _, _, _ => []
  | n + 1, x, y, bd =>
    let x' := stepCoord x_diff x
    match bd.sign with
    | Sign.Neg =>
        emit swap_axes x' y ::
          bresenhamLoop x_diff y_diff swap_axes n x' y
            (bd.add (y_diff.magnitude * 2))
    | Sign.Pos =>
        let y' := stepCoord y_diff y
        emit swap_axes x' y' ::
          bresenhamLoop x_diff y_diff swap_axes n x' y'
            ((bd.add (y_diff.magnitude * 2)).sub (x_diff.magnitude * 2))

/-- calculate_line (lines 124-212) at an unsigned type. -/
def calculate_line (p1 p2 : Point) : List Point :=
  let x_diff0 := SignedInt.diff_of p2.x p1.x
  let y_diff0 := SignedInt.diff_of p2.y p1.y
  let swap_axes : Bool := decide (x_diff0.magnitude < y_diff0.magnitude)
  let x_diff := if swap_axes then y_diff0 else x_diff0
  let y_diff := if swap_axes then x_diff0 else y_diff0
  let x := if swap_axes then p1.y else p1.x
  let y := if swap_axes then p1.x else p1.y
  let bresenham_diff :=
    SignedInt.diff_of (y_diff.magnitude * 2) x_diff.magnitude
  p1 :: bresenhamLoop x_diff y_diff swap_axes x_diff.magnitude x y
    bresenham_diff

end Unsigned

/-- Interpretation of an unsigned point as a signed point of equal or
greater width (the cast is exact under the no-overflow precondition). -/
def ptZ (p : Unsigned.Point) : Point :=
  ⟨(p.x : Int), (p.y : Int)⟩

/-- Correspondence between a SignedInt of the unsigned instantiation and
one of the signed instantiation: equal sign, cast-equal magnitude. -/
def corr (sN : Unsigned.SignedInt) (s : SignedInt) : Prop :=
  (sN.magnitude : Int) = s.magnitude ∧ sN.sign = s.sign

instance (sN : Unsigned.SignedInt) (s : SignedInt) : Decidable (corr sN s) :=
  inferInstanceAs (Decidable (((sN.magnitude : Int) = s.magnitude) ∧ sN.sign = s.sign))

theorem corr_diff_of (a b : Nat) :
    corr (Unsigned.SignedInt.diff_of a b) (SignedInt.diff_of (a : Int) (b : Int)) := by
  unfold Unsigned.SignedInt.diff_of SignedInt.diff_of
  by_cases h : a ≥ b
  · rw [if_pos h, if_pos (show (a : Int) ≥ (b : Int) by omega)]
    exact ⟨show ((a - b : Nat) : Int) = (a : Int) - (b : Int) by omega, rfl⟩
  · rw [if_neg h, if_neg (show ¬ (a : Int) ≥ (b : Int) by omega)]
    exact ⟨show ((b - a : Nat) : Int) = (b : Int) - (a : Int) by omega, rfl⟩

theorem corr_from (v : Nat) :
    corr (Unsigned.SignedInt.«from» v) (SignedInt.«from» (v : Int)) := by
  unfold Unsigned.SignedInt.«from» SignedInt.«from»
  have h := corr_diff_of v 0
  simpa using h

theorem corr_sub {sN : Unsigned.SignedInt} {s : SignedInt} (h : corr sN s) (r : Nat) :
    corr (sN.sub r) (s.sub (r : Int)) := by
  rw [Unsigned.sub_eq, sub_eq_nonneg s (by positivity : (0 : Int) ≤ (r : Int))]
  by_cases hneg : sN.sign = Sign.Neg
  · rw [if_pos hneg, if_pos (by rw [← h.2]; exact hneg)]
    exact ⟨by have := h.1; push_cast; omega, rfl⟩
  · rw [if_neg hneg, if_neg (by rw [← h.2]; exact hneg)]
    rw [← h.1]
    exact corr_diff_of sN.magnitude r

theorem corr_add {sN : Unsigned.SignedInt} {s : SignedInt} (h : corr sN s) (r : Nat) :
    corr (sN.add r) (s.add (r : Int)) := by
  rw [Unsigned.add_eq, add_eq_nonneg s (by positivity : (0 : Int) ≤ (r : Int))]
  by_cases hneg : sN.sign = Sign.Neg
  · rw [if_pos hneg, if_pos (by rw [← h.2]; exact hneg)]
    rw [← h.1]
    exact corr_sub (corr_from r) sN.magnitude
  · rw [if_neg hneg, if_neg (by rw [← h.2]; exact hneg)]
    exact ⟨by have := h.1; push_cast; omega, rfl⟩

theorem ptZ_emit (sw : Bool) (aN bN : Nat) (a b : Int)
    (h1 : (aN : Int) = a) (h2 : (bN : Int) = b) :
    ptZ (Unsigned.emit sw aN bN) = emit sw a b := by
  cases sw
  · show (⟨(aN : Int), (bN : Int)⟩ : Point) = ⟨a, b⟩
    rw [h1, h2]
  · show (⟨(bN : Int), (aN : Int)⟩ : Point) = ⟨b, a⟩
    rw [h1, h2]

/-- Simulation: under the loop invariant and non-negative step targets,
the unsigned loop computes exactly the image of the signed loop; in
particular the truncated Nat decrements never actually truncate. -/
theorem loop_sim (xdN ydN : Unsigned.SignedInt) (xd yd : SignedInt) (sw : Bool)
    (hcx : corr xdN xd) (hcy : corr ydN yd)
    (ha : 0 < xd.magnitude) (hba : yd.magnitude ≤ xd.magnitude) :
    ∀ (n : Nat) (xN yN : Nat) (x y : Int) (bdN : Unsigned.SignedInt)
      (bd : SignedInt) (F : Int),
      (xN : Int) = x → (yN : Int) = y → corr bdN bd → bd.WF →
      2 * yd.magnitude - 2 * xd.magnitude ≤ bd.val →
      bd.val ≤ 2 * yd.magnitude - 1 →
      2 * xd.magnitude * F =
        2 * yd.magnitude * (n : Int) + bd.val + xd.magnitude - 2 * yd.magnitude →
      0 ≤ x + dirOf xd * (n : Int) →
      0 ≤ y + dirOf yd * F →
      (Unsigned.bresenhamLoop xdN ydN sw n xN yN bdN).map ptZ =
        bresenhamLoop xd yd sw n x y bd := by
  have hb0 : 0 ≤ yd.magnitude := by
    rw [← hcy.1]
    positivity
  intro n
  induction n with
  | zero =>
    intro xN yN x y bdN bd F _ _ _ _ _ _ _ _ _
    rfl
  | succ n ih =>
    intro xN yN x y bdN bd F hxx hyy hcorr hWF hlo hhi hF htx hty
    have hcast : ((n + 1 : Nat) : Int) = (n : Int) + 1 := by push_cast; ring
    have hstep : ((Unsigned.stepCoord xdN xN : Nat) : Int) = stepCoord xd x := by
      by_cases hxneg : xd.sign = Sign.Neg
      · have hd : dirOf xd = -1 := dirOf_neg hxneg
        have hxN1 : 1 ≤ xN := by
          rw [hd, hcast] at htx
          omega
        have hxdN : xdN.sign = Sign.Neg := by rw [hcx.2]; exact hxneg
        unfold Unsigned.stepCoord stepCoord
        rw [hxdN, hxneg]
        show ((xN - 1 : Nat) : Int) = x - 1
        omega
      · have hxdP : xd.sign = Sign.Pos := sign_not_neg hxneg
        have hxdNP : xdN.sign = Sign.Pos := by rw [hcx.2]; exact hxdP
        have hmagZ : ¬ xd.magnitude = 0 := by omega
        have hmagN : ¬ xdN.magnitude = 0 := by
          have := hcx.1
          omega
        unfold Unsigned.stepCoord stepCoord
        rw [hxdNP, hxdP]
        show ((if xdN.magnitude = 0 then xN else xN + 1 : Nat) : Int) =
          (if xd.magnitude = 0 then x else x + 1)
        rw [if_neg hmagN, if_neg hmagZ]
        push_cast
        omega
    have htx' : 0 ≤ stepCoord xd x + dirOf xd * (n : Int) := by
      rw [stepCoord_eq]
      rw [hcast] at htx
      have heq : x + dirOf xd + dirOf xd * (n : Int) = x + dirOf xd * ((n : Int) + 1) := by
        ring
      rw [heq]
      exact htx
    have hc2y : ((ydN.magnitude * 2 : Nat) : Int) = yd.magnitude * 2 := by
      have := hcy.1
      push_cast
      omega
    have hc2x : ((xdN.magnitude * 2 : Nat) : Int) = xd.magnitude * 2 := by
      have := hcx.1
      push_cast
      omega
    by_cases hbneg : bd.sign = Sign.Neg
    · have hbNneg : bdN.sign = Sign.Neg := by rw [hcorr.2]; exact hbneg
      have hunfN : Unsigned.bresenhamLoop xdN ydN sw (n + 1) xN yN bdN =
          Unsigned.emit sw (Unsigned.stepCoord xdN xN) yN ::
            Unsigned.bresenhamLoop xdN ydN sw n (Unsigned.stepCoord xdN xN) yN
              (bdN.add (ydN.magnitude * 2)) := by
        simp only [Unsigned.bresenhamLoop, hbNneg]
      have hunfZ : bresenhamLoop xd yd sw (n + 1) x y bd =
          emit sw (stepCoord xd x) y ::
            bresenhamLoop xd yd sw n (stepCoord xd x) y
              (bd.add (yd.magnitude * 2)) := by
        simp only [bresenhamLoop, hbneg]
      rw [hunfN, hunfZ, List.map_cons]
      have hcorr' : corr (bdN.add (ydN.magnitude * 2)) (bd.add (yd.magnitude * 2)) := by
        have h := corr_add hcorr (ydN.magnitude * 2)
        rw [hc2y] at h
        exact h
      have hadd := add_spec hWF (yd.magnitude * 2)
      have hval' : (bd.add (yd.magnitude * 2)).val = bd.val + 2 * yd.magnitude := by
        rw [hadd.1]
        ring
      have hvneg : bd.val < 0 := (WF_sign_neg_iff hWF).mp hbneg
      congr 1
      · exact ptZ_emit sw _ yN _ y hstep hyy
      · refine ih (Unsigned.stepCoord xdN xN) yN (stepCoord xd x) y
          (bdN.add (ydN.magnitude * 2)) (bd.add (yd.magnitude * 2)) F
          hstep hyy hcorr' hadd.2 ?_ ?_ ?_ htx' hty
        · rw [hval']
          linarith
        · rw [hval']
          linarith
        · rw [hval']
          rw [hcast] at hF
          linarith
    · have hbP : bd.sign = Sign.Pos := sign_not_neg hbneg
      have hbNP : bdN.sign = Sign.Pos := by rw [hcorr.2]; exact hbP
      have hv0 : 0 ≤ bd.val := WF_val_nonneg_of_pos hWF hbP
      have hadd := add_spec hWF (yd.magnitude * 2)
      have hsub := sub_spec hadd.2 (xd.magnitude * 2)
      have hval' : ((bd.add (yd.magnitude * 2)).sub (xd.magnitude * 2)).val =
          bd.val + 2 * yd.magnitude - 2 * xd.magnitude := by
        rw [hsub.1, hadd.1]
        ring
      have hF' : 2 * xd.magnitude * (F - 1) = 2 * yd.magnitude * (n : Int) +
          ((bd.add (yd.magnitude * 2)).sub (xd.magnitude * 2)).val +
          xd.magnitude - 2 * yd.magnitude := by
        rw [hval']
        rw [hcast] at hF
        linarith
      have hbn : 0 ≤ 2 * yd.magnitude * (n : Int) :=
        mul_nonneg (by omega) (by positivity)
      have hF1 : 1 ≤ F := by
        have hlow : -xd.magnitude ≤ 2 * xd.magnitude * (F - 1) := by
          rw [hF', hval']
          linarith
        have := F_nonneg ha hlow
        omega
      have hstepy : ((Unsigned.stepCoord ydN yN : Nat) : Int) = stepCoord yd y := by
        by_cases hyneg : yd.sign = Sign.Neg
        · have hd : dirOf yd = -1 := dirOf_neg hyneg
          have hyN1 : 1 ≤ yN := by
            rw [hd] at hty
            omega
          have hydN : ydN.sign = Sign.Neg := by rw [hcy.2]; exact hyneg
          unfold Unsigned.stepCoord stepCoord
          rw [hydN, hyneg]
          show ((yN - 1 : Nat) : Int) = y - 1
          omega
        · have hydP : yd.sign = Sign.Pos := sign_not_neg hyneg
          have hydNP : ydN.sign = Sign.Pos := by rw [hcy.2]; exact hydP
          unfold Unsigned.stepCoord stepCoord
          rw [hydNP, hydP]
          show ((if ydN.magnitude = 0 then yN else yN + 1 : Nat) : Int) =
            (if yd.magnitude = 0 then y else y + 1)
          by_cases hm : yd.magnitude = 0
          · have hmN : ydN.magnitude = 0 := by
              have := hcy.1
              omega
            rw [if_pos hm, if_pos hmN]
            exact hyy
          · have hmN : ¬ ydN.magnitude = 0 := by
              have := hcy.1
              omega
            rw [if_neg hm, if_neg hmN]
            push_cast
            omega
      have hty' : 0 ≤ stepCoord yd y + dirOf yd * (F - 1) := by
        rw [stepCoord_eq]
        have heq : y + dirOf yd + dirOf yd * (F - 1) = y + dirOf yd * F := by ring
        rw [heq]
        exact hty
      have hunfN : Unsigned.bresenhamLoop xdN ydN sw (n + 1) xN yN bdN =
          Unsigned.emit sw (Unsigned.stepCoord xdN xN) (Unsigned.stepCoord ydN yN) ::
            Unsigned.bresenhamLoop xdN ydN sw n (Unsigned.stepCoord xdN xN)
              (Unsigned.stepCoord ydN yN)
              ((bdN.add (ydN.magnitude * 2)).sub (xdN.magnitude * 2)) := by
        simp only [Unsigned.bresenhamLoop, hbNP]
      have hunfZ : bresenhamLoop xd yd sw (n + 1) x y bd =
          emit sw (stepCoord xd x) (stepCoord yd y) ::
            bresenhamLoop xd yd sw n (stepCoord xd x) (stepCoord yd y)
              ((bd.add (yd.magnitude * 2)).sub (xd.magnitude * 2)) := by
        simp only [bresenhamLoop, hbP]
      rw [hunfN, hunfZ, List.map_cons]
      have hcorr' : corr ((bdN.add (ydN.magnitude * 2)).sub (xdN.magnitude * 2))
          ((bd.add (yd.magnitude * 2)).sub (xd.magnitude * 2)) := by
        have h1 := corr_add hcorr (ydN.magnitude * 2)
        rw [hc2y] at h1
        have h2 := corr_sub h1 (xdN.magnitude * 2)
        rw [hc2x] at h2
        exact h2
      congr 1
      · exact ptZ_emit sw _ _ _ _ hstep hstepy
      · refine ih (Unsigned.stepCoord xdN xN) (Unsigned.stepCoord ydN yN)
          (stepCoord xd x) (stepCoord yd y)
          ((bdN.add (ydN.magnitude * 2)).sub (xdN.magnitude * 2))
          ((bd.add (yd.magnitude * 2)).sub (xd.magnitude * 2)) (F - 1)
          hstep hstepy hcorr' hsub.2 ?_ ?_ hF' htx' hty'
        · rw [hval']
          linarith
        · rw [hval']
          linarith

/-- Instantiation of loop_sim at the concrete initial state built by
calculate_line, in post-normalization coordinates. -/
theorem calc_post_sim (xdN ydN : Unsigned.SignedInt) (xd yd : SignedInt) (sw : Bool)
    (x0N y0N xtN ytN : Nat)
    (hcx : corr xdN xd) (hcy : corr ydN yd)
    (ha : 0 < xd.magnitude) (hba : yd.magnitude ≤ xd.magnitude)
    (hxd : xd = SignedInt.diff_of (xtN : Int) (x0N : Int))
    (hyd : yd = SignedInt.diff_of (ytN : Int) (y0N : Int)) :
    (Unsigned.bresenhamLoop xdN ydN sw xdN.magnitude x0N y0N
        (Unsigned.SignedInt.diff_of (ydN.magnitude * 2) xdN.magnitude)).map ptZ =
      bresenhamLoop xd yd sw xd.magnitude.toNat (x0N : Int) (y0N : Int)
        (SignedInt.diff_of (yd.magnitude * 2) xd.magnitude) := by
  have hnc : ((xdN.magnitude : Nat) : Int) = xd.magnitude := hcx.1
  have hn : xd.magnitude.toNat = xdN.magnitude := by omega
  have hbd0corr : corr
      (Unsigned.SignedInt.diff_of (ydN.magnitude * 2) xdN.magnitude)
      (SignedInt.diff_of (yd.magnitude * 2) xd.magnitude) := by
    have h := corr_diff_of (ydN.magnitude * 2) xdN.magnitude
    have hc2y : ((ydN.magnitude * 2 : Nat) : Int) = yd.magnitude * 2 := by
      have := hcy.1
      push_cast
      omega
    rw [hc2y, hcx.1] at h
    exact h
  have hWF0 := diff_of_WF (yd.magnitude * 2) xd.magnitude
  have hv0 : (SignedInt.diff_of (yd.magnitude * 2) xd.magnitude).val =
      2 * yd.magnitude - xd.magnitude := by
    rw [diff_of_val]
    ring
  have hb0 : 0 ≤ yd.magnitude := by
    rw [← hcy.1]
    positivity
  have hxt : (x0N : Int) + dirOf xd * xd.magnitude = (xtN : Int) := by
    rw [hxd]
    exact add_dir_mul_mag _ _
  have hyt : (y0N : Int) + dirOf yd * yd.magnitude = (ytN : Int) := by
    rw [hyd]
    exact add_dir_mul_mag _ _
  rw [hn]
  exact loop_sim xdN ydN xd yd sw hcx hcy ha hba xdN.magnitude x0N y0N
    (x0N : Int) (y0N : Int)
    (Unsigned.SignedInt.diff_of (ydN.magnitude * 2) xdN.magnitude)
    (SignedInt.diff_of (yd.magnitude * 2) xd.magnitude) yd.magnitude
    rfl rfl hbd0corr hWF0 (by rw [hv0]; omega) (by rw [hv0]; omega)
    (by rw [hv0, hnc]; ring) (by rw [hnc, hxt]; positivity)
    (by rw [hyt]; positivity)

/-- The unsigned instantiation computes the image of the signed
instantiation on every pair of unsigned points. -/
theorem calculate_line_sim (x1 y1 x2 y2 : Nat) :
    (Unsigned.calculate_line ⟨x1, y1⟩ ⟨x2, y2⟩).map ptZ =
      calculate_line ⟨(x1 : Int), (y1 : Int)⟩ ⟨(x2 : Int), (y2 : Int)⟩ := by
  have hcx := corr_diff_of x2 x1
  have hcy := corr_diff_of y2 y1
  by_cases hsw : (Unsigned.SignedInt.diff_of x2 x1).magnitude <
      (Unsigned.SignedInt.diff_of y2 y1).magnitude
  · have hswN : decide ((Unsigned.SignedInt.diff_of x2 x1).magnitude <
        (Unsigned.SignedInt.diff_of y2 y1).magnitude) = true := decide_eq_true hsw
    have hswZ : decide ((SignedInt.diff_of ((x2 : Int)) ((x1 : Int))).magnitude <
        (SignedInt.diff_of ((y2 : Int)) ((y1 : Int))).magnitude) = true := by
      refine decide_eq_true ?_
      have h1 := hcx.1
      have h2 := hcy.1
      omega
    have hunfN : Unsigned.calculate_line ⟨x1, y1⟩ ⟨x2, y2⟩ =
        (⟨x1, y1⟩ : Unsigned.Point) ::
          Unsigned.bresenhamLoop (Unsigned.SignedInt.diff_of y2 y1)
            (Unsigned.SignedInt.diff_of x2 x1) true
            (Unsigned.SignedInt.diff_of y2 y1).magnitude y1 x1
            (Unsigned.SignedInt.diff_of
              ((Unsigned.SignedInt.diff_of x2 x1).magnitude * 2)
              (Unsigned.SignedInt.diff_of y2 y1).magnitude) := by
      simp only [Unsigned.calculate_line, hswN]
      rfl
    have hunfZ : calculate_line ⟨(x1 : Int), (y1 : Int)⟩ ⟨(x2 : Int), (y2 : Int)⟩ =
        (⟨(x1 : Int), (y1 : Int)⟩ : Point) ::
          bresenhamLoop (SignedInt.diff_of ((y2 : Int)) ((y1 : Int)))
            (SignedInt.diff_of ((x2 : Int)) ((x1 : Int))) true
            (SignedInt.diff_of ((y2 : Int)) ((y1 : Int))).magnitude.toNat
            ((y1 : Int)) ((x1 : Int))
            (SignedInt.diff_of
              ((SignedInt.diff_of ((x2 : Int)) ((x1 : Int))).magnitude * 2)
              (SignedInt.diff_of ((y2 : Int)) ((y1 : Int))).magnitude) := by
      simp only [calculate_line, hswZ]
      rfl
    rw [hunfN, hunfZ, List.map_cons]
    have ha : 0 < (SignedInt.diff_of ((y2 : Int)) ((y1 : Int))).magnitude := by
      have h1 := hcx.1
      have h2 := hcy.1
      have h3 := (diff_of_WF ((x2 : Int)) ((x1 : Int))).1
      omega
    congr 1
    exact calc_post_sim (Unsigned.SignedInt.diff_of y2 y1)
      (Unsigned.SignedInt.diff_of x2 x1)
      (SignedInt.diff_of ((y2 : Int)) ((y1 : Int)))
      (SignedInt.diff_of ((x2 : Int)) ((x1 : Int))) true y1 x1 y2 x2
      hcy hcx ha (by have h1 := hcx.1; have h2 := hcy.1; omega) rfl rfl
  · have hswN : decide ((Unsigned.SignedInt.diff_of x2 x1).magnitude <
        (Unsigned.SignedInt.diff_of y2 y1).magnitude) = false := decide_eq_false hsw
    have hswZ : decide ((SignedInt.diff_of ((x2 : Int)) ((x1 : Int))).magnitude <
        (SignedInt.diff_of ((y2 : Int)) ((y1 : Int))).magnitude) = false := by
      refine decide_eq_false ?_
      have h1 := hcx.1
      have h2 := hcy.1
      omega
    have hunfN : Unsigned.calculate_line ⟨x1, y1⟩ ⟨x2, y2⟩ =
        (⟨x1, y1⟩ : Unsigned.Point) ::
          Unsigned.bresenhamLoop (Unsigned.SignedInt.diff_of x2 x1)
            (Unsigned.SignedInt.diff_of y2 y1) false
            (Unsigned.SignedInt.diff_of x2 x1).magnitude x1 y1
            (Unsigned.SignedInt.diff_of
              ((Unsigned.SignedInt.diff_of y2 y1).magnitude * 2)
              (Unsigned.SignedInt.diff_of x2 x1).magnitude) := by
      simp only [Unsigned.calculate_line, hswN]
      rfl
    have hunfZ : calculate_line ⟨(x1 : Int), (y1 : Int)⟩ ⟨(x2 : Int), (y2 : Int)⟩ =
        (⟨(x1 : Int), (y1 : Int)⟩ : Point) ::
          bresenhamLoop (SignedInt.diff_of ((x2 : Int)) ((x1 : Int)))
            (SignedInt.diff_of ((y2 : Int)) ((y1 : Int))) false
            (SignedInt.diff_of ((x2 : Int)) ((x1 : Int))).magnitude.toNat
            ((x1 : Int)) ((y1 : Int))
            (SignedInt.diff_of
              ((SignedInt.diff_of ((y2 : Int)) ((y1 : Int))).magnitude * 2)
              (SignedInt.diff_of ((x2 : Int)) ((x1 : Int))).magnitude) := by
      simp only [calculate_line, hswZ]
      rfl
    rw [hunfN, hunfZ, List.map_cons]
    by_cases hz : (Unsigned.SignedInt.diff_of x2 x1).magnitude = 0
    · have hzZ : (SignedInt.diff_of ((x2 : Int)) ((x1 : Int))).magnitude.toNat = 0 := by
        have := hcx.1
        omega
      rw [hz, hzZ]
      rfl
    · have ha : 0 < (SignedInt.diff_of ((x2 : Int)) ((x1 : Int))).magnitude := by
        have := hcx.1
        omega
      congr 1
      exact calc_post_sim (Unsigned.SignedInt.diff_of x2 x1)
        (Unsigned.SignedInt.diff_of y2 y1)
        (SignedInt.diff_of ((x2 : Int)) ((x1 : Int)))
        (SignedInt.diff_of ((y2 : Int)) ((y1 : Int))) false x1 y1 x2 y2
        hcx hcy ha (by have h1 := hcx.1; have h2 := hcy.1; omega) rfl rfl

/-- Interpretation of a signed point with non-negative coordinates as an
unsigned point. -/
def ptN (p : Point) : Unsigned.Point :=
  ⟨p.x.toNat, p.y.toNat⟩

/-- C7: for endpoints with non-negative coordinates, calculate_line at a
signed instantiation and at an unsigned instantiation of equal or greater
width produce coordinatewise-identical sequences (intermediate
coordinates are automatically non-negative, by the bounding box). -/
theorem claim_C7 (p1 p2 : Point)
    (h1 : 0 ≤ p1.x) (h2 : 0 ≤ p1.y) (h3 : 0 ≤ p2.x) (h4 : 0 ≤ p2.y) :
    Unsigned.calculate_line (ptN p1) (ptN p2) =
      (calculate_line p1 p2).map ptN := by
  have hsim := calculate_line_sim p1.x.toNat p1.y.toNat p2.x.toNat p2.y.toNat
  have e1 : ((p1.x.toNat : Nat) : Int) = p1.x := Int.toNat_of_nonneg h1
  have e2 : ((p1.y.toNat : Nat) : Int) = p1.y := Int.toNat_of_nonneg h2
  have e3 : ((p2.x.toNat : Nat) : Int) = p2.x := Int.toNat_of_nonneg h3
  have e4 : ((p2.y.toNat : Nat) : Int) = p2.y := Int.toNat_of_nonneg h4
  rw [e1, e2, e3, e4] at hsim
  have hmap := congrArg (List.map ptN) hsim
  rw [List.map_map] at hmap
  have hfun : ptN ∘ ptZ = id := by
    funext q
    show ptN (ptZ q) = q
    have f1 : ((q.x : Int)).toNat = q.x := by omega
    have f2 : ((q.y : Int)).toNat = q.y := by omega
    show (⟨((q.x : Int)).toNat, ((q.y : Int)).toNat⟩ : Unsigned.Point) = q
    rw [f1, f2]
  rw [hfun, List.map_id] at hmap
  exact hmap

theorem claim_C7_witness :
    (0 : Int) ≤ 6 ∧ (0 : Int) ≤ 5 ∧ (0 : Int) ≤ 10 ∧
    Unsigned.calculate_line (ptN ⟨6, 5⟩) (ptN ⟨10, 5⟩) =
      (calculate_line ⟨6, 5⟩ ⟨10, 5⟩).map ptN :=
  ⟨by decide, by decide, by decide,
    claim_C7 ⟨6, 5⟩ ⟨10, 5⟩ (by decide) (by decide) (by decide) (by decide)⟩

/-- C8: the four SignedInt operations at an unsigned instantiation are
total and compute exactly the values the ideal signed semantics computes
(corr: equal sign, cast-equal magnitude).  Truncated Nat subtraction can
therefore never have fired inside them: the only subtraction on T is the
one in diff_of, taken on the branch where the minuend is at least the
subtrahend. -/
theorem claim_C8 (a b v r : Nat) (sN : Unsigned.SignedInt) (s : SignedInt)
    (h : corr sN s) :
    corr (Unsigned.SignedInt.diff_of a b) (SignedInt.diff_of (a : Int) (b : Int)) ∧
    corr (Unsigned.SignedInt.«from» v) (SignedInt.«from» (v : Int)) ∧
    corr (sN.add r) (s.add (r : Int)) ∧
    corr (sN.sub r) (s.sub (r : Int)) :=
  ⟨corr_diff_of a b, corr_from v, corr_add h r, corr_sub h r⟩

theorem claim_C8_witness :
    corr ⟨4, Sign.Neg⟩ ⟨4, Sign.Neg⟩ ∧
    corr (Unsigned.SignedInt.diff_of 3 7)
      (SignedInt.diff_of ((3 : Nat) : Int) ((7 : Nat) : Int)) ∧
    corr (Unsigned.SignedInt.«from» 5) (SignedInt.«from» ((5 : Nat) : Int)) ∧
    corr ((⟨4, Sign.Neg⟩ : Unsigned.SignedInt).add 2)
      ((⟨4, Sign.Neg⟩ : SignedInt).add ((2 : Nat) : Int)) ∧
    corr ((⟨4, Sign.Neg⟩ : Unsigned.SignedInt).sub 2)
      ((⟨4, Sign.Neg⟩ : SignedInt).sub ((2 : Nat) : Int)) := by
  have h : corr ⟨4, Sign.Neg⟩ ⟨4, Sign.Neg⟩ := by decide
  have hc := claim_C8 3 7 5 2 ⟨4, Sign.Neg⟩ ⟨4, Sign.Neg⟩ h
  exact ⟨h, hc.1, hc.2.1, hc.2.2.1, hc.2.2.2⟩

theorem dir_neg_one_sign {d : SignedInt} (h : dirOf d = -1) : d.sign = Sign.Neg := by
  by_cases hs : d.sign = Sign.Neg
  · exact hs
  · have hp := sign_not_neg hs
    by_cases hm : d.magnitude = 0
    · rw [dirOf_zero hp hm] at h
      exact absurd h (by decide)
    · rw [dirOf_pos hp hm] at h
      exact absurd h (by decide)

theorem chain'_and_mem {α : Type} {R : α → α → Prop} {B : α → Prop} :
    ∀ {l : List α}, List.Chain' R l → (∀ p ∈ l, B p) →
      List.Chain' (fun p q => R p q ∧ B p ∧ B q) l := by
  intro l
  induction l with
  | nil =>
    intro _ _
    exact List.chain'_nil
  | cons a l ih =>
    intro hc hb
    cases l with
    | nil => exact List.chain'_singleton a
    | cons b l' =>
      rw [List.chain'_cons] at hc ⊢
      refine ⟨⟨hc.1, hb a (List.mem_cons_self a _),
        hb b (List.mem_cons_of_mem a (List.mem_cons_self b _))⟩, ?_⟩
      exact ih hc.2 (fun p hp => hb p (List.mem_cons_of_mem a hp))

/-- C10: for points with non-negative coordinates (the values an unsigned
instantiation can hold), whenever calculate_line performs a unit decrement
on a coordinate, the pre-decrement value strictly exceeds that axis's
destination coordinate, which is itself non-negative — so the decrement
x - 1 or y - 1 of the running coordinate can never underflow. -/
theorem claim_C10 (p1 p2 : Point)
    (h1 : 0 ≤ p1.x) (h2 : 0 ≤ p1.y) (h3 : 0 ≤ p2.x) (h4 : 0 ≤ p2.y) :
    List.Chain' (fun p q : Point =>
      (q.x = p.x - 1 → p2.x < p.x ∧ 0 < p.x) ∧
      (q.y = p.y - 1 → p2.y < p.y ∧ 0 < p.y))
      (calculate_line p1 p2) := by
  obtain ⟨_, _, _, hchain, hbox⟩ := calculate_line_master p1 p2
  have hcomb := chain'_and_mem hchain hbox
  refine List.Chain'.imp ?_ hcomb
  intro p q hpq
  obtain ⟨⟨hx, hy, _⟩, _hbp, hbq⟩ := hpq
  constructor
  · intro hdec
    have hdir : dirOf (SignedInt.diff_of p2.x p1.x) = -1 := by
      rcases hx with hx | hx <;> omega
    have hsgn : (SignedInt.diff_of p2.x p1.x).sign = Sign.Neg :=
      dir_neg_one_sign hdir
    have hlt : p2.x < p1.x := diff_of_sign_neg.mp hsgn
    have hbqx : between p1.x p2.x q.x := hbq.1
    unfold between at hbqx
    omega
  · intro hdec
    have hdir : dirOf (SignedInt.diff_of p2.y p1.y) = -1 := by
      rcases hy with hy | hy <;> omega
    have hsgn : (SignedInt.diff_of p2.y p1.y).sign = Sign.Neg :=
      dir_neg_one_sign hdir
    have hlt : p2.y < p1.y := diff_of_sign_neg.mp hsgn
    have hbqy : between p1.y p2.y q.y := hbq.2
    unfold between at hbqy
    omega

theorem claim_C10_witness :
    (0 : Int) ≤ 3 ∧ (0 : Int) ≤ 9 ∧ (0 : Int) ≤ 1 ∧
    List.Chain' (fun p q : Point =>
      (q.x = p.x - 1 → (1 : Int) < p.x ∧ 0 < p.x) ∧
      (q.y = p.y - 1 → (1 : Int) < p.y ∧ 0 < p.y))
      (calculate_line ⟨3, 9⟩ ⟨1, 1⟩) :=
  ⟨by decide, by decide, by decide,
    claim_C10 ⟨3, 9⟩ ⟨1, 1⟩ (by decide) (by decide) (by decide) (by decide)⟩

end LineRS
